import Mathlib

/-!
Verification of the scoring and configuration logic of the leia
question-answering evaluation harness, embedded from `leia/tasks/miaqa.py`
and `evaluate.py`.

Strings are modelled as lists of characters (`Str`). Python library behavior
used by the code is embedded explicitly: `str.lower` as ASCII lower-casing,
`string.punctuation` as the four ASCII code-point ranges it comprises,
`str.split()` as whitespace-run splitting that discards empty tokens,
`" ".join` as interleaving a single space, and `collections.Counter`
intersection as multiset intersection. External capabilities (the `fugashi`
morphological tagger, the tokenizer's `encode`, the per-task model run) are
modelled as function parameters; Python `max` over an empty sequence raises,
modelled by `Option`/pattern splits on a non-empty list.
-/

namespace Leia

/-- Strings, modelled as lists of characters. -/
abbrev Str := List Char

/-- ASCII lower-casing of one character, the effect of Python `str.lower`
on the character sets in scope for this repository. -/
def lowerChar (c : Char) : Char :=
  if 65 ≤ c.toNat ∧ c.toNat ≤ 90 then Char.ofNat (c.toNat + 32) else c

/-- The `lower` inner function of `normalize_answer`: `text.lower()`. -/
def lower (text : Str) : Str := text.map lowerChar

/-- Membership in Python's `string.punctuation`, which consists exactly of
the ASCII characters with code points 33-47, 58-64, 91-96 and 123-126. -/
def isPyPunct (c : Char) : Bool :=
  (33 ≤ c.toNat && c.toNat ≤ 47) || (58 ≤ c.toNat && c.toNat ≤ 64) ||
    (91 ≤ c.toNat && c.toNat ≤ 96) || (123 ≤ c.toNat && c.toNat ≤ 126)

/-- The `remove_punc` inner function of `normalize_answer`: keep the
characters not in `set(string.punctuation)`. -/
def remove_punc (text : Str) : Str := text.filter (fun c => !isPyPunct c)

/-- The four counter characters that `remove_counter` deletes
(year, age, person, Korean year). -/
def isCounterChar (c : Char) : Bool :=
  c = '年' || c = '歳' || c = '人' || c = '년'

/-- The `remove_counter` inner function of `normalize_answer`: four
single-character `replace(_, "")` calls, i.e. deletion of those characters. -/
def remove_counter (text : Str) : Str := text.filter (fun c => !isCounterChar c)

/-- Whitespace as recognized by Python `str.split()` on ASCII text:
space, tab, newline, carriage return, vertical tab, form feed. -/
def isWs (c : Char) : Bool :=
  c = ' ' || c = '\t' || c = '\n' || c = '\r' || c.toNat = 11 || c.toNat = 12

/-- Helper for `pySplit`; `acc` holds the characters of the current token in
reverse order. -/
def splitWsAux : Str → Str → List Str
  | [], acc => if acc.isEmpty then [] else [acc.reverse]
  | c :: rest, acc =>
    if isWs c then
      if acc.isEmpty then splitWsAux rest [] else acc.reverse :: splitWsAux rest []
    else splitWsAux rest (c :: acc)

/-- Python `text.split()`: split on runs of whitespace, discarding empty
tokens, so the result holds only non-empty whitespace-free tokens. -/
def pySplit (text : Str) : List Str := splitWsAux text []

/-- Python `" ".join(tokens)`: the tokens interleaved with single spaces. -/
def joinSpace : List Str → Str
  | [] => []
  | [t] => t
  | t :: ts => t ++ ' ' :: joinSpace ts

/-- The `white_space_fix` inner function of `normalize_answer`:
`" ".join(text.split())`. -/
def white_space_fix (text : Str) : Str := joinSpace (pySplit text)

/-- The function `normalize_answer` of `leia/tasks/miaqa.py`:
`white_space_fix(remove_counter(remove_punc(lower(s))))`. -/
def normalize_answer (s : Str) : Str :=
  white_space_fix (remove_counter (remove_punc (lower s)))

/-- The function `exact_match_score` of `leia/tasks/miaqa.py`: equality of
the normalized strings. -/
def exact_match_score (prediction ground_truth : Str) : Bool :=
  normalize_answer prediction == normalize_answer ground_truth

/-- The function `f1_score` of `leia/tasks/miaqa.py`, over exact rationals.
Python's `Counter(xs) & Counter(ys)` is the multiset intersection of the two
token multisets and `sum(common.values())` is its cardinality. -/
def f1_score (prediction ground_truth : Str) : ℚ :=
  let prediction_tokens := pySplit (normalize_answer prediction)
  let ground_truth_tokens := pySplit (normalize_answer ground_truth)
  let num_same := Multiset.card
    ((prediction_tokens : Multiset Str) ∩ (ground_truth_tokens : Multiset Str))
  if num_same = 0 then 0
  else
    let precision : ℚ := num_same / prediction_tokens.length
    let «recall» : ℚ := num_same / ground_truth_tokens.length
    (2 * precision * «recall») / (precision + «recall»)

/-- The scoring part of `MIAQABase._process_results` once the language branch
has produced the generated text and answer list: per-example `exact_match`
and `f1` are Python `max` over the gold answers (`max` of booleans is
disjunction; `max` over an empty sequence raises, hence `none`). The result
pair is (exact_match, f1). -/
def process_results (generated_text : Str) (answers : List Str) :
    Option (Bool × ℚ) :=
  match answers with
  | [] => none
  | a :: rest =>
    some ((rest.map (exact_match_score generated_text)).foldl (fun x y => x || y)
            (exact_match_score generated_text a),
          (rest.map (f1_score generated_text)).foldl max (f1_score generated_text a))

/-- The per-character effect of
`generated_text.replace("・", " ").replace("、", ",")` in the Japanese branch
of `_process_results` (each replacement maps one character to one character,
and the first never produces the second's pattern). -/
def jaSubstChar (c : Char) : Char :=
  if c = '・' then ' ' else if c = '、' then ',' else c

/-- The substitutions applied to the generated text before morphological
segmentation in the Japanese branch. -/
def jaSubst (text : Str) : Str := text.map jaSubstChar

/-- The Japanese branch of `MIAQABase._process_results`: each gold answer is
segmented by `parse` (the external `fugashi` tagger, a function parameter)
as is, while the generated text first receives the punctuation substitutions
and is then segmented; scoring then proceeds as in `process_results`. -/
def ja_process_results (parse : Str → Str) (generated_text : Str)
    (answers : List Str) : Option (Bool × ℚ) :=
  process_results (parse (jaSubst generated_text)) (answers.map parse)

/-- Modelled from the spec: the specification's description of the Japanese
branch, in which the locale-specific punctuation substitutions are applied
before segmentation to the generated text and to each gold answer alike.
Stated only to be compared with `ja_process_results`, the embedding of the
code. -/
def ja_process_results_spec (parse : Str → Str) (generated_text : Str)
    (answers : List Str) : Option (Bool × ℚ) :=
  process_results (parse (jaSubst generated_text))
    (answers.map (fun a => parse (jaSubst a)))

/-- One dataset row as consumed by the MIAQA tasks. -/
structure Example where
  id : Str
  question : Str
  lang : Str
  answers : List Str
  split : Str
  source : Str
  has_eng_answer_only : Bool
deriving DecidableEq

/-- Python `example["answers"][0].lower()`: the lower-cased primary gold
answer (the empty string when the answers list is empty). -/
def primaryAnswerLower (ex : Example) : Str := lower (ex.answers.headD [])

/-- Python `x in ("no answer", "yes", "no")`: the placeholder answers that
every task filter excludes. -/
def isPlaceholder (a : Str) : Bool :=
  a == "no answer".toList || a == "yes".toList || a == "no".toList

/-- The filter predicate of `MIAQABase._get_train_dataset`: matching
language, not English-answer-only, and no placeholder primary answer. -/
def trainFilter (language : Str) (ex : Example) : Bool :=
  ex.lang == language && !ex.has_eng_answer_only &&
    !isPlaceholder (primaryAnswerLower ex)

/-- `MIAQABase._get_train_dataset` applied to an abstract row list. -/
def get_train_dataset (language : Str) (rows : List Example) : List Example :=
  rows.filter (trainFilter language)

/-- The filter predicate of `XORQA._get_task_dataset`: matching language and
no placeholder primary answer. -/
def xorqaFilter (language : Str) (ex : Example) : Bool :=
  ex.lang == language && !isPlaceholder (primaryAnswerLower ex)

/-- `XORQA._get_task_dataset` applied to an abstract row list. -/
def xorqa_task_dataset (language : Str) (rows : List Example) : List Example :=
  rows.filter (xorqaFilter language)

/-- The filter predicate of `MKQA._get_task_dataset`: no placeholder primary
answer (no language condition at this stage). -/
def mkqaFilter (ex : Example) : Bool := !isPlaceholder (primaryAnswerLower ex)

/-- `MKQA._get_task_dataset` applied to an abstract row list. -/
def mkqa_task_dataset (rows : List Example) : List Example :=
  rows.filter mkqaFilter

/-- A source row whose primary gold answer is the placeholder "yes". -/
def exYes : Example :=
  ⟨"1".toList, "q1".toList, "en".toList, ["yes".toList],
    "dev".toList, "xorqa".toList, false⟩

/-- A source row whose primary gold answer is the placeholder "No answer". -/
def exNoAnswer : Example :=
  ⟨"2".toList, "q2".toList, "en".toList, ["No answer".toList],
    "dev".toList, "xorqa".toList, false⟩

/-- A source row with the ordinary gold answer "Berlin". -/
def exBerlin : Example :=
  ⟨"3".toList, "q3".toList, "en".toList, ["Berlin".toList],
    "dev".toList, "xorqa".toList, false⟩

/-- A generation request as constructed by `MIAQABase._create_requests`. -/
structure GenerationRequest where
  context : Str
  stop_sequences : List Str
  max_generation_length : Nat
deriving DecidableEq

/-- `MIAQABase._create_requests`, with the external tokenizer's
`encode(answer, add_special_tokens=False)` as a function parameter; Python
`max` over an empty answers list raises, hence `none`. -/
def create_requests (encode : Str → List Nat) (context : Str)
    (answers : List Str) : Option (List GenerationRequest) :=
  match answers with
  | [] => none
  | a :: rest =>
    some [⟨context, [['\n']],
      (rest.map (fun x => (encode x).length)).foldl max (encode a).length⟩]

/-- Python `text.split(",")`: split at every comma, keeping empty pieces;
the empty string yields one empty piece. -/
def splitComma : Str → List Str
  | [] => [[]]
  | c :: rest =>
    match splitComma rest with
    | [] => [[c]]
    | t :: ts => if c = ',' then [] :: t :: ts else (c :: t) :: ts

/-- The configuration phase of `evaluate` in `evaluate.py`: the `assert` that
the comma-split task list and few-shot-count list have equal length, followed
by the per-task loop that invokes generation (`runTask`, the external model
run). An unequal length yields the assertion error without `runTask` ever
being applied. -/
def evaluate (tasks num_fewshot_samples : Str) (runTask : Str → ℚ) :
    Except Str (List ℚ) :=
  let ts := splitComma tasks
  let ns := splitComma num_fewshot_samples
  if ts.length = ns.length then Except.ok (ts.map runTask)
  else Except.error
    "The length of tasks and the length of num_fewshot_samples must be the same.".toList

/-- Mapping a function that fixes every element of a list fixes the list. -/
theorem map_eq_self_of {α : Type} (f : α → α) (l : List α)
    (h : ∀ a ∈ l, f a = a) : l.map f = l := by
  induction l with
  | nil => rfl
  | cons x xs ih =>
    simp only [List.map_cons, h x (List.mem_cons_self x xs),
      ih (fun a ha => h a (List.mem_cons_of_mem x ha))]

/-- Every token produced by `splitWsAux` is non-empty, whitespace-free, and
drawn from the input or the accumulator. -/
theorem splitWsAux_sound (s : Str) : ∀ acc, (∀ c ∈ acc, isWs c = false) →
    ∀ t ∈ splitWsAux s acc,
      t ≠ [] ∧ ∀ c ∈ t, isWs c = false ∧ (c ∈ s ∨ c ∈ acc) := by
  induction s with
  | nil =>
    intro acc hacc t ht
    unfold splitWsAux at ht
    split at ht
    · simp at ht
    · next hne =>
      simp only [List.mem_singleton] at ht
      subst ht
      refine ⟨by simpa [List.isEmpty_iff] using hne, ?_⟩
      intro c hc
      have hc' : c ∈ acc := List.mem_reverse.mp hc
      exact ⟨hacc c hc', Or.inr hc'⟩
  | cons d rest ih =>
    intro acc hacc t ht
    unfold splitWsAux at ht
    by_cases hws : isWs d = true
    · rw [if_pos hws] at ht
      by_cases hae : acc.isEmpty = true
      · rw [if_pos hae] at ht
        have h2 := ih [] (by simp) t ht
        refine ⟨h2.1, fun c hc => ⟨(h2.2 c hc).1, ?_⟩⟩
        rcases (h2.2 c hc).2 with h | h
        · exact Or.inl (List.mem_cons_of_mem _ h)
        · simp at h
      · rw [if_neg hae] at ht
        rcases List.mem_cons.mp ht with rfl | ht'
        · refine ⟨by simpa [List.isEmpty_iff] using hae, ?_⟩
          intro c hc
          have hc' : c ∈ acc := List.mem_reverse.mp hc
          exact ⟨hacc c hc', Or.inr hc'⟩
        · have h2 := ih [] (by simp) t ht'
          refine ⟨h2.1, fun c hc => ⟨(h2.2 c hc).1, ?_⟩⟩
          rcases (h2.2 c hc).2 with h | h
          · exact Or.inl (List.mem_cons_of_mem _ h)
          · simp at h
    · rw [if_neg hws] at ht
      have hacc' : ∀ c ∈ d :: acc, isWs c = false := by
        intro c hc
        rcases List.mem_cons.mp hc with rfl | hc'
        · simpa using hws
        · exact hacc c hc'
      have h2 := ih (d :: acc) hacc' t ht
      refine ⟨h2.1, fun c hc => ⟨(h2.2 c hc).1, ?_⟩⟩
      rcases (h2.2 c hc).2 with h | h
      · exact Or.inl (List.mem_cons_of_mem _ h)
      · rcases List.mem_cons.mp h with rfl | h'
        · exact Or.inl (List.mem_cons_self _ _)
        · exact Or.inr h'

/-- Every token of `pySplit text` is non-empty, whitespace-free, and made of
characters of `text`. -/
theorem pySplit_tokens (text : Str) :
    ∀ t ∈ pySplit text, t ≠ [] ∧ ∀ c ∈ t, isWs c = false ∧ c ∈ text := by
  intro t ht
  have h2 := splitWsAux_sound text [] (by simp) t ht
  refine ⟨h2.1, fun c hc => ⟨(h2.2 c hc).1, ?_⟩⟩
  rcases (h2.2 c hc).2 with h | h
  · exact h
  · simp at h

/-- Unfolding equation of `splitWsAux` at a non-whitespace character. -/
theorem splitWsAux_cons_nonws (c : Char) (rest acc : Str) (hc : isWs c = false) :
    splitWsAux (c :: rest) acc = splitWsAux rest (c :: acc) := by
  simp only [splitWsAux, hc]
  simp

/-- Unfolding equation of `splitWsAux` at a whitespace character. -/
theorem splitWsAux_cons_ws (c : Char) (rest acc : Str) (hc : isWs c = true) :
    splitWsAux (c :: rest) acc =
      if acc.isEmpty then splitWsAux rest [] else acc.reverse :: splitWsAux rest [] := by
  simp only [splitWsAux, hc]
  simp

/-- Pushing a whitespace-free prefix through `splitWsAux` moves it into the
accumulator. -/
theorem splitWsAux_append_nonws (tok : Str) (h : ∀ c ∈ tok, isWs c = false) :
    ∀ rest acc, splitWsAux (tok ++ rest) acc = splitWsAux rest (tok.reverse ++ acc) := by
  induction tok with
  | nil => intro rest acc; simp
  | cons c cs ih =>
    intro rest acc
    have hc : isWs c = false := h c (List.mem_cons_self c cs)
    rw [List.cons_append, splitWsAux_cons_nonws c _ _ hc,
      ih (fun x hx => h x (List.mem_cons_of_mem _ hx)) rest (c :: acc)]
    congr 1
    simp

/-- Characters of a space-join are spaces or characters of the tokens. -/
theorem mem_joinSpace {c : Char} : ∀ {toks : List Str}, c ∈ joinSpace toks →
    c = ' ' ∨ ∃ t ∈ toks, c ∈ t := by
  intro toks
  induction toks with
  | nil => intro hc; simp [joinSpace] at hc
  | cons t ts ih =>
    intro hc
    cases ts with
    | nil => exact Or.inr ⟨t, by simp, hc⟩
    | cons t' ts' =>
      rcases List.mem_append.mp hc with h | h
      · exact Or.inr ⟨t, by simp, h⟩
      · rcases List.mem_cons.mp h with rfl | h'
        · exact Or.inl rfl
        · rcases ih h' with h2 | ⟨u, hu, hcu⟩
          · exact Or.inl h2
          · exact Or.inr ⟨u, List.mem_cons_of_mem _ hu, hcu⟩

/-- Splitting a space-join of non-empty whitespace-free tokens recovers the
tokens. -/
theorem pySplit_joinSpace : ∀ toks : List Str,
    (∀ t ∈ toks, t ≠ [] ∧ ∀ c ∈ t, isWs c = false) →
    pySplit (joinSpace toks) = toks := by
  intro toks
  induction toks with
  | nil => intro; rfl
  | cons t ts ih =>
    intro h
    have ht := h t (List.mem_cons_self t ts)
    cases ts with
    | nil =>
      show splitWsAux (joinSpace [t]) [] = [t]
      have hj : joinSpace [t] = t ++ [] := by simp [joinSpace]
      rw [hj, splitWsAux_append_nonws t ht.2 [] []]
      unfold splitWsAux
      rw [if_neg (by simp [List.isEmpty_iff, ht.1])]
      simp
    | cons t' ts' =>
      show splitWsAux (joinSpace (t :: t' :: ts')) [] = t :: t' :: ts'
      have hj : joinSpace (t :: t' :: ts') = t ++ ' ' :: joinSpace (t' :: ts') := by
        simp [joinSpace]
      rw [hj, splitWsAux_append_nonws t ht.2 _ [], List.append_nil,
        splitWsAux_cons_ws ' ' _ _ (by decide),
        if_neg (by simp [List.isEmpty_iff, ht.1]), List.reverse_reverse]
      have h2 := ih (fun u hu => h u (List.mem_cons_of_mem _ hu))
      exact congrArg (t :: ·) h2

/-- Converting a valid code point to a character and back is the identity. -/
theorem toNat_ofNat_valid {n : Nat} (h : n.isValidChar) : (Char.ofNat n).toNat = n := by
  rw [Char.ofNat, dif_pos h]
  rfl

/-- The code point of `lowerChar c` in terms of the code point of `c`. -/
theorem toNat_lowerChar (c : Char) : (lowerChar c).toNat =
    if 65 ≤ c.toNat ∧ c.toNat ≤ 90 then c.toNat + 32 else c.toNat := by
  unfold lowerChar
  by_cases h : 65 ≤ c.toNat ∧ c.toNat ≤ 90
  · rw [if_pos h, if_pos h]
    exact toNat_ofNat_valid (Or.inl (by omega))
  · rw [if_neg h, if_neg h]

/-- Lower-casing never produces an ASCII upper-case letter. -/
theorem lowerChar_not_upper (c : Char) :
    ¬ (65 ≤ (lowerChar c).toNat ∧ (lowerChar c).toNat ≤ 90) := by
  rw [toNat_lowerChar]
  by_cases h : 65 ≤ c.toNat ∧ c.toNat ≤ 90
  · rw [if_pos h]; omega
  · rw [if_neg h]; omega

/-- `lowerChar` fixes a character that is not an ASCII upper-case letter. -/
theorem lowerChar_fixed_of_not_upper {c : Char}
    (h : ¬ (65 ≤ c.toNat ∧ c.toNat ≤ 90)) : lowerChar c = c := by
  unfold lowerChar
  rw [if_neg h]

/-- `lowerChar` is idempotent. -/
theorem lowerChar_idem (c : Char) : lowerChar (lowerChar c) = lowerChar c :=
  lowerChar_fixed_of_not_upper (lowerChar_not_upper c)

/-- Every character of a normalized answer is fixed by lower-casing and is
neither Python punctuation nor a counter character. -/
theorem mem_normalize_answer {s : Str} {c : Char} (hc : c ∈ normalize_answer s) :
    lowerChar c = c ∧ isPyPunct c = false ∧ isCounterChar c = false := by
  rcases mem_joinSpace hc with rfl | ⟨t, ht, hct⟩
  · exact ⟨by decide, by decide, by decide⟩
  · have h1 : c ∈ remove_counter (remove_punc (lower s)) :=
      ((pySplit_tokens _ t ht).2 c hct).2
    have h2 := List.mem_filter.mp h1
    have h3 := List.mem_filter.mp h2.1
    refine ⟨?_, by simpa using h3.2, by simpa using h2.2⟩
    rcases List.mem_map.mp h3.1 with ⟨c₀, _, rfl⟩
    exact lowerChar_idem c₀

/-- `normalize_answer` fixes its own output. -/
theorem normalize_answer_eq_self (s : Str) :
    normalize_answer (normalize_answer s) = normalize_answer s := by
  have hmem := fun c hc => mem_normalize_answer (s := s) (c := c) hc
  have hlow : lower (normalize_answer s) = normalize_answer s :=
    map_eq_self_of _ _ (fun c hc => (hmem c hc).1)
  have hpunc : remove_punc (normalize_answer s) = normalize_answer s :=
    List.filter_eq_self.mpr (fun c hc => by simp [(hmem c hc).2.1])
  have hcnt : remove_counter (normalize_answer s) = normalize_answer s :=
    List.filter_eq_self.mpr (fun c hc => by simp [(hmem c hc).2.2])
  have hwsf : white_space_fix (normalize_answer s) = normalize_answer s := by
    show joinSpace (pySplit (normalize_answer s)) = normalize_answer s
    have hsp : pySplit (normalize_answer s) =
        pySplit (remove_counter (remove_punc (lower s))) := by
      show pySplit (joinSpace (pySplit (remove_counter (remove_punc (lower s))))) = _
      exact pySplit_joinSpace _ (fun t ht => ⟨(pySplit_tokens _ t ht).1,
        fun c hc => ((pySplit_tokens _ t ht).2 c hc).1⟩)
    rw [hsp]
    rfl
  show white_space_fix (remove_counter (remove_punc (lower (normalize_answer s)))) = _
  rw [hlow, hpunc, hcnt]
  exact hwsf

/-- Bounds for the harmonic mean of `s/a` and `s/b` when `0 < s ≤ a, b`. -/
theorem harmonic_mean_bounds {s a b : ℕ} (hs : 0 < s) (hsa : s ≤ a) (hsb : s ≤ b) :
    0 ≤ (2 * ((s : ℚ) / a) * ((s : ℚ) / b)) / ((s : ℚ) / a + (s : ℚ) / b) ∧
      (2 * ((s : ℚ) / a) * ((s : ℚ) / b)) / ((s : ℚ) / a + (s : ℚ) / b) ≤ 1 := by
  have ha : (0 : ℚ) < a := by exact_mod_cast lt_of_lt_of_le hs hsa
  have hb : (0 : ℚ) < b := by exact_mod_cast lt_of_lt_of_le hs hsb
  have hsq : (0 : ℚ) < s := by exact_mod_cast hs
  have hda : (0 : ℚ) < (s : ℚ) / a := div_pos hsq ha
  have hdb : (0 : ℚ) < (s : ℚ) / b := div_pos hsq hb
  have hsum : (0 : ℚ) < (s : ℚ) / a + (s : ℚ) / b := by linarith
  have hab : (0 : ℚ) < (a : ℚ) + b := by linarith
  have hE : (2 * ((s : ℚ) / a) * ((s : ℚ) / b)) / ((s : ℚ) / a + (s : ℚ) / b) =
      2 * s / (a + b) := by
    rw [div_eq_div_iff hsum.ne' hab.ne']
    field_simp
    ring
  rw [hE]
  constructor
  · positivity
  · rw [div_le_one hab]
    have h2 : (s : ℚ) ≤ a := by exact_mod_cast hsa
    have h3 : (s : ℚ) ≤ b := by exact_mod_cast hsb
    linarith

/-- The F1 score always lies in the unit interval. -/
theorem f1_score_mem_unit (p g : Str) : 0 ≤ f1_score p g ∧ f1_score p g ≤ 1 := by
  simp only [f1_score]
  generalize pySplit (normalize_answer p) = pt
  generalize pySplit (normalize_answer g) = gt
  by_cases h0 : Multiset.card ((pt : Multiset Str) ∩ (gt : Multiset Str)) = 0
  · rw [if_pos h0]
    norm_num
  · rw [if_neg h0]
    have hsa : Multiset.card ((pt : Multiset Str) ∩ (gt : Multiset Str)) ≤ pt.length := by
      simpa using Multiset.card_le_card (Multiset.inter_le_left (pt : Multiset Str) gt)
    have hsb : Multiset.card ((pt : Multiset Str) ∩ (gt : Multiset Str)) ≤ gt.length := by
      simpa using Multiset.card_le_card (Multiset.inter_le_right (pt : Multiset Str) gt)
    exact harmonic_mean_bounds (Nat.pos_of_ne_zero h0) hsa hsb

/-- Folding boolean disjunction is disjunction with `any`. -/
theorem foldl_or_eq (b : Bool) (l : List Bool) :
    l.foldl (fun x y => x || y) b = (b || l.any id) := by
  induction l generalizing b with
  | nil => simp
  | cons x xs ih => simp [ih, Bool.or_assoc]

/-- A left fold of `max` yields the seed or a list element, bounds the seed,
and bounds every list element. -/
theorem foldl_max_spec {α : Type} [LinearOrder α] (q : α) (l : List α) :
    (l.foldl max q = q ∨ l.foldl max q ∈ l) ∧
      q ≤ l.foldl max q ∧ ∀ x ∈ l, x ≤ l.foldl max q := by
  induction l generalizing q with
  | nil => simp
  | cons x xs ih =>
    simp only [List.foldl_cons]
    rcases ih (max q x) with ⟨hmem, hle, hall⟩
    refine ⟨?_, ?_, ?_⟩
    · rcases hmem with h | h
      · rcases max_choice q x with hm | hm
        · left; rw [h, hm]
        · right; rw [h, hm]; exact List.mem_cons_self _ _
      · exact Or.inr (List.mem_cons_of_mem _ h)
    · exact le_trans (le_max_left _ _) hle
    · intro y hy
      rcases List.mem_cons.mp hy with rfl | hy'
      · exact le_trans (le_max_right _ _) hle
      · exact hall y hy'

/-- Characterization of `process_results` on a non-empty answer list: the
exact-match component is the disjunction of the per-answer exact matches and
the F1 component is the maximum of the per-answer F1 scores. -/
theorem process_results_spec (gen : Str) (a : Str) (rest : List Str) :
    ∃ em q, process_results gen (a :: rest) = some (em, q) ∧
      (em = true ↔ ∃ ans ∈ a :: rest, exact_match_score gen ans = true) ∧
      q ∈ (a :: rest).map (f1_score gen) ∧
      ∀ x ∈ (a :: rest).map (f1_score gen), x ≤ q := by
  refine ⟨_, _, rfl, ?_, ?_, ?_⟩
  · rw [foldl_or_eq]
    simp only [Bool.or_eq_true, List.any_eq_true, List.mem_map, id, List.mem_cons]
    constructor
    · rintro (h | ⟨b, ⟨ans, hans, rfl⟩, hb⟩)
      · exact ⟨a, Or.inl rfl, h⟩
      · exact ⟨ans, Or.inr hans, hb⟩
    · rintro ⟨ans, rfl | hans, h⟩
      · exact Or.inl h
      · exact Or.inr ⟨exact_match_score gen ans, ⟨ans, hans, rfl⟩, h⟩
  · rw [List.map_cons]
    rcases (foldl_max_spec (f1_score gen a) (rest.map (f1_score gen))).1 with h | h
    · rw [h]; exact List.mem_cons_self _ _
    · exact List.mem_cons_of_mem _ h
  · intro x hx
    rw [List.map_cons] at hx
    rcases List.mem_cons.mp hx with rfl | hx'
    · exact (foldl_max_spec (f1_score gen a) (rest.map (f1_score gen))).2.1
    · exact (foldl_max_spec (f1_score gen a) (rest.map (f1_score gen))).2.2 x hx'

/-- Concrete F1 value: disjoint single-token answers score 0. -/
theorem f1_score_kyoto_tokyo : f1_score "Kyoto".toList "Tokyo".toList = 0 := by
  have hp : pySplit (normalize_answer "Kyoto".toList) = ["kyoto".toList] := by decide
  have hg : pySplit (normalize_answer "Tokyo".toList) = ["tokyo".toList] := by decide
  have hc : Multiset.card ((["kyoto".toList] : Multiset Str) ∩
      (["tokyo".toList] : Multiset Str)) = 0 := by decide
  simp only [f1_score, hp, hg, hc]
  norm_num

/-- Concrete F1 value: identical single-token answers score 1. -/
theorem f1_score_kyoto_kyoto : f1_score "Kyoto".toList "Kyoto".toList = 1 := by
  have hp : pySplit (normalize_answer "Kyoto".toList) = ["kyoto".toList] := by decide
  have hc : Multiset.card ((["kyoto".toList] : Multiset Str) ∩
      (["kyoto".toList] : Multiset Str)) = 1 := by decide
  simp only [f1_score, hp, hc, List.length_singleton]
  norm_num

/-- C1: for every prediction and gold string, `f1_score` normalizes both
strings, splits them into whitespace token multisets, takes the cardinality
of the multiset intersection as the common count, returns 0 when that count
is 0 and otherwise the harmonic mean of precision and recall; the result
always lies in the unit interval. -/
theorem f1_score_formula_and_range (p g : Str) :
    (f1_score p g =
      if Multiset.card ((pySplit (normalize_answer p) : Multiset Str) ∩
          (pySplit (normalize_answer g) : Multiset Str)) = 0 then 0
      else
        (2 * ((Multiset.card ((pySplit (normalize_answer p) : Multiset Str) ∩
            (pySplit (normalize_answer g) : Multiset Str)) : ℚ) /
              (pySplit (normalize_answer p)).length) *
          ((Multiset.card ((pySplit (normalize_answer p) : Multiset Str) ∩
            (pySplit (normalize_answer g) : Multiset Str)) : ℚ) /
              (pySplit (normalize_answer g)).length)) /
        (((Multiset.card ((pySplit (normalize_answer p) : Multiset Str) ∩
            (pySplit (normalize_answer g) : Multiset Str)) : ℚ) /
              (pySplit (normalize_answer p)).length) +
          ((Multiset.card ((pySplit (normalize_answer p) : Multiset Str) ∩
            (pySplit (normalize_answer g) : Multiset Str)) : ℚ) /
              (pySplit (normalize_answer g)).length))) ∧
    0 ≤ f1_score p g ∧ f1_score p g ≤ 1 :=
  ⟨rfl, f1_score_mem_unit p g⟩

/-- C2: exact match holds exactly when the normalized strings are equal, is
invariant under pre-normalizing both inputs, and in particular is true for
the pair "Paris." / "paris", which differ only in case and punctuation. -/
theorem exact_match_normalized (p g : Str) :
    (exact_match_score p g = true ↔ normalize_answer p = normalize_answer g) ∧
    exact_match_score p g =
      exact_match_score (normalize_answer p) (normalize_answer g) ∧
    exact_match_score "Paris.".toList "paris".toList = true := by
  refine ⟨?_, ?_, by decide⟩
  · simp [exact_match_score]
  · simp only [exact_match_score, normalize_answer_eq_self]

/-- C3: `normalize_answer` is idempotent. -/
theorem normalize_answer_idempotent (s : Str) :
    normalize_answer (normalize_answer s) = normalize_answer s :=
  normalize_answer_eq_self s

/-- C4: on an example with several gold answers, `_process_results` takes the
per-example exact match and F1 as the maximum of the single-answer scores
over the gold answers; in particular prediction "Kyoto" against gold answers
["Tokyo", "Kyoto"] scores exact match true (value 1) despite mismatching the
first candidate. -/
theorem process_results_max_over_answers (gen : Str) (a : Str) (rest : List Str) :
    (∃ em q, process_results gen (a :: rest) = some (em, q) ∧
      (em = true ↔ ∃ ans ∈ a :: rest, exact_match_score gen ans = true) ∧
      q ∈ (a :: rest).map (f1_score gen) ∧
      ∀ x ∈ (a :: rest).map (f1_score gen), x ≤ q) ∧
    process_results "Kyoto".toList ["Tokyo".toList, "Kyoto".toList] =
      some (true, 1) := by
  refine ⟨process_results_spec gen a rest, ?_⟩
  have e1 : exact_match_score "Kyoto".toList "Tokyo".toList = false := by decide
  have e2 : exact_match_score "Kyoto".toList "Kyoto".toList = true := by decide
  simp only [process_results, List.map_cons, List.map_nil, List.foldl_cons,
    List.foldl_nil, e1, e2, f1_score_kyoto_tokyo, f1_score_kyoto_kyoto,
    Bool.false_or]
  rw [max_eq_right (by norm_num : (0:ℚ) ≤ 1)]

/-- Concrete F1 value for the generation " paris" against gold "Paris". -/
theorem f1_score_paris : f1_score " paris".toList "Paris".toList = 1 := by
  have hp : pySplit (normalize_answer " paris".toList) = ["paris".toList] := by decide
  have hg : pySplit (normalize_answer "Paris".toList) = ["paris".toList] := by decide
  have hc : Multiset.card ((["paris".toList] : Multiset Str) ∩
      (["paris".toList] : Multiset Str)) = 1 := by decide
  simp only [f1_score, hp, hg, hc, List.length_singleton]
  norm_num

/-- Concrete F1 value for the generation " 42" against gold "42 years": one
common token out of one and two tokens respectively. -/
theorem f1_score_42_years : f1_score " 42".toList "42 years".toList = 2 / 3 := by
  have hp : pySplit (normalize_answer " 42".toList) = ["42".toList] := by decide
  have hg : pySplit (normalize_answer "42 years".toList) =
      ["42".toList, "years".toList] := by decide
  have hc : Multiset.card ((["42".toList] : Multiset Str) ∩
      (["42".toList, "years".toList] : Multiset Str)) = 1 := by decide
  simp only [f1_score, hp, hg, hc, List.length_singleton, List.length_cons,
    List.length_nil]
  norm_num

/-- Concrete F1 value for the generation " 42" against gold "42年": the
counter character is stripped, so the scores coincide. -/
theorem f1_score_42_nen : f1_score " 42".toList "42年".toList = 1 := by
  have hp : pySplit (normalize_answer " 42".toList) = ["42".toList] := by decide
  have hg : pySplit (normalize_answer "42年".toList) = ["42".toList] := by decide
  have hc : Multiset.card ((["42".toList] : Multiset Str) ∩
      (["42".toList] : Multiset Str)) = 1 := by decide
  simp only [f1_score, hp, hg, hc, List.length_singleton]
  norm_num

/-- C5 counterexample: with gold answer "42 years" and generation " 42" the
code scores exact match 0 (not 1) and F1 2/3 (not 1): `remove_counter`
strips only the CJK counter characters, never the English word "years", so
the normalized strings differ. -/
theorem scoring_42_years_counterexample :
    exact_match_score " 42".toList "42 years".toList = false ∧
    normalize_answer " 42".toList ≠ normalize_answer "42 years".toList ∧
    process_results " 42".toList ["42 years".toList] = some (false, 2 / 3) := by
  refine ⟨by decide, by decide, ?_⟩
  have e : exact_match_score " 42".toList "42 years".toList = false := by decide
  simp only [process_results, List.map_nil, List.foldl_nil, e, f1_score_42_years]

/-- C5 (amended): gold ["Paris"] with generation " paris" scores exact match
1 and F1 1; gold ["42 years"] with generation " 42" scores exact match 0 and
F1 2/3, because the counter stripping removes only the CJK counter
characters (年, 歳, 人, 년), not the English word "years"; with the CJK gold
"42年" the stripping applies and both metrics are 1. -/
theorem scoring_scenario_end_to_end :
    process_results " paris".toList ["Paris".toList] = some (true, 1) ∧
    process_results " 42".toList ["42 years".toList] = some (false, 2 / 3) ∧
    process_results " 42".toList ["42年".toList] = some (true, 1) := by
  have e1 : exact_match_score " paris".toList "Paris".toList = true := by decide
  have e2 : exact_match_score " 42".toList "42 years".toList = false := by decide
  have e3 : exact_match_score " 42".toList "42年".toList = true := by decide
  refine ⟨?_, ?_, ?_⟩ <;>
    simp only [process_results, List.map_nil, List.foldl_nil, e1, e2, e3,
      f1_score_paris, f1_score_42_years, f1_score_42_nen]

/-- A non-placeholder answer differs from each of the three placeholder
strings. -/
theorem not_placeholder_iff {a : Str} (h : isPlaceholder a = false) :
    a ≠ "no answer".toList ∧ a ≠ "yes".toList ∧ a ≠ "no".toList := by
  simp only [isPlaceholder, Bool.or_eq_false_iff, beq_eq_false_iff_ne, ne_eq] at h
  exact ⟨h.1.1, h.1.2, h.2⟩

/-- C6: every example passing the few-shot/train filter or a task variant's
evaluation filter has a lower-cased primary gold answer distinct from
"no answer", "yes" and "no"; and the three-row source with answers ["yes"],
["No answer"], ["Berlin"] filters down to the single "Berlin" row. -/
theorem task_filters_exclude_placeholders :
    (∀ (language : Str) (rows : List Example) (ex : Example),
      ex ∈ get_train_dataset language rows →
        primaryAnswerLower ex ≠ "no answer".toList ∧
        primaryAnswerLower ex ≠ "yes".toList ∧
        primaryAnswerLower ex ≠ "no".toList) ∧
    (∀ (language : Str) (rows : List Example) (ex : Example),
      ex ∈ xorqa_task_dataset language rows →
        primaryAnswerLower ex ≠ "no answer".toList ∧
        primaryAnswerLower ex ≠ "yes".toList ∧
        primaryAnswerLower ex ≠ "no".toList) ∧
    (∀ (rows : List Example) (ex : Example),
      ex ∈ mkqa_task_dataset rows →
        primaryAnswerLower ex ≠ "no answer".toList ∧
        primaryAnswerLower ex ≠ "yes".toList ∧
        primaryAnswerLower ex ≠ "no".toList) ∧
    xorqa_task_dataset "en".toList [exYes, exNoAnswer, exBerlin] = [exBerlin] := by
  refine ⟨?_, ?_, ?_, by decide⟩
  · intro language rows ex hex
    have h := (List.mem_filter.mp hex).2
    simp only [trainFilter, Bool.and_eq_true] at h
    exact not_placeholder_iff (by simpa using h.2)
  · intro language rows ex hex
    have h := (List.mem_filter.mp hex).2
    simp only [xorqaFilter, Bool.and_eq_true] at h
    exact not_placeholder_iff (by simpa using h.2)
  · intro rows ex hex
    have h := (List.mem_filter.mp hex).2
    exact not_placeholder_iff (by simpa [mkqaFilter] using h)

/-- C7 counterexample: with a tokenizer whose encoding of every answer is
empty, the single constructed request has `max_generation_length = 0`, so
the claimed lower bound of 1 fails. -/
theorem create_requests_counterexample :
    create_requests (fun _ => []) [] ["a".toList] =
      some [⟨[], [['\n']], 0⟩] ∧
    ¬ 1 ≤ (GenerationRequest.mk [] [['\n']] 0).max_generation_length :=
  ⟨rfl, by decide⟩

/-- C7 (amended): for every example with at least one gold answer, exactly
one request is returned; its stop sequences contain the newline and its
generation budget is the maximum tokenized answer length; that maximum is
at least 1 whenever some gold answer tokenizes to at least one token (the
code itself never enforces a positive budget). -/
theorem create_requests_spec (encode : Str → List Nat) (context : Str)
    (a : Str) (rest : List Str) :
    ∃ r, create_requests encode context (a :: rest) = some [r] ∧
      r.context = context ∧
      ['\n'] ∈ r.stop_sequences ∧
      r.max_generation_length ∈ (a :: rest).map (fun x => (encode x).length) ∧
      (∀ n ∈ (a :: rest).map (fun x => (encode x).length),
        n ≤ r.max_generation_length) ∧
      ((∃ x ∈ a :: rest, (encode x).length ≠ 0) →
        1 ≤ r.max_generation_length) := by
  refine ⟨_, rfl, rfl, by simp, ?_, ?_, ?_⟩
  · show (rest.map fun x => (encode x).length).foldl max (encode a).length ∈
      (a :: rest).map fun x => (encode x).length
    rw [List.map_cons]
    rcases (foldl_max_spec (encode a).length
        (rest.map fun x => (encode x).length)).1 with h | h
    · rw [h]; exact List.mem_cons_self _ _
    · exact List.mem_cons_of_mem _ h
  · intro n hn
    show n ≤ (rest.map fun x => (encode x).length).foldl max (encode a).length
    rw [List.map_cons] at hn
    rcases List.mem_cons.mp hn with rfl | hn'
    · exact (foldl_max_spec _ _).2.1
    · exact (foldl_max_spec _ _).2.2 n hn'
  · rintro ⟨x, hx, hlen⟩
    show 1 ≤ (rest.map fun x => (encode x).length).foldl max (encode a).length
    have h1 : 1 ≤ (encode x).length := Nat.pos_of_ne_zero hlen
    rcases List.mem_cons.mp hx with rfl | hx'
    · exact le_trans h1 (foldl_max_spec _ _).2.1
    · exact le_trans h1
        ((foldl_max_spec _ _).2.2 _ (List.mem_map.mpr ⟨x, hx', rfl⟩))

/-- C8 counterexample: with the identity as segmenter, generation "・" and
the single gold answer "、", the code scores exact match 0 while the claimed
pipeline, which applies the substitutions to the gold answers too, scores
exact match 1; the two pipelines disagree. -/
theorem ja_substitution_counterexample :
    ja_process_results id "・".toList ["、".toList] = some (false, 0) ∧
    ja_process_results_spec id "・".toList ["、".toList] = some (true, 0) ∧
    ja_process_results id "・".toList ["、".toList] ≠
      ja_process_results_spec id "・".toList ["、".toList] := by
  have hsub : jaSubst "・".toList = " ".toList := by decide
  have hsub2 : jaSubst "、".toList = ",".toList := by decide
  have h1 : f1_score " ".toList "、".toList = 0 := by
    have hp : pySplit (normalize_answer " ".toList) = [] := by decide
    have hg : pySplit (normalize_answer "、".toList) = ["、".toList] := by decide
    have hc : Multiset.card ((([] : List Str) : Multiset Str) ∩
        (["、".toList] : Multiset Str)) = 0 := by decide
    simp only [f1_score, hp, hg, hc]
    norm_num
  have h2 : f1_score " ".toList ",".toList = 0 := by
    have hp : pySplit (normalize_answer " ".toList) = [] := by decide
    have hg : pySplit (normalize_answer ",".toList) = [] := by decide
    have hc : Multiset.card ((([] : List Str) : Multiset Str) ∩
        (([] : List Str) : Multiset Str)) = 0 := by decide
    simp only [f1_score, hp, hg, hc]
    norm_num
  have e1 : exact_match_score " ".toList "、".toList = false := by decide
  have e2 : exact_match_score " ".toList ",".toList = true := by decide
  have hcode : ja_process_results id "・".toList ["、".toList] = some (false, 0) := by
    simp only [ja_process_results, List.map_cons, List.map_nil, id_eq, hsub,
      process_results, List.foldl_nil, e1, h1]
  have hspec : ja_process_results_spec id "・".toList ["、".toList] =
      some (true, 0) := by
    simp only [ja_process_results_spec, List.map_cons, List.map_nil, id_eq, hsub,
      hsub2, process_results, List.foldl_nil, e2, h2]
  refine ⟨hcode, hspec, ?_⟩
  rw [hcode, hspec]
  simp

/-- C8 (amended): for Japanese tasks, each gold answer is passed to the
morphological segmenter directly, while the generated text first receives
the mid-dot-to-space and full-width-comma-to-comma substitutions and is then
segmented; scoring is the maximum over the segmented answers exactly as in
`process_results`. The substitutions are applied to the generated text only,
not to the gold answers. -/
theorem ja_pipeline_spec (parse : Str → Str) (gen : Str) (a : Str)
    (rest : List Str) :
    ja_process_results parse gen (a :: rest) =
      process_results (parse (jaSubst gen)) ((a :: rest).map parse) ∧
    (∃ em q, ja_process_results parse gen (a :: rest) = some (em, q) ∧
      (em = true ↔ ∃ ans ∈ a :: rest,
        exact_match_score (parse (jaSubst gen)) (parse ans) = true) ∧
      q ∈ (a :: rest).map (fun ans => f1_score (parse (jaSubst gen)) (parse ans)) ∧
      ∀ x ∈ (a :: rest).map (fun ans => f1_score (parse (jaSubst gen)) (parse ans)),
        x ≤ q) := by
  refine ⟨rfl, ?_⟩
  rcases process_results_spec (parse (jaSubst gen)) (parse a) (rest.map parse)
    with ⟨em, q, heq, hem, hmemq, hmax⟩
  have hml : (parse a :: rest.map parse).map (f1_score (parse (jaSubst gen))) =
      (a :: rest).map (fun ans => f1_score (parse (jaSubst gen)) (parse ans)) := by
    rw [← List.map_cons parse a rest, List.map_map]
    rfl
  refine ⟨em, q, ?_, ?_, ?_, ?_⟩
  · show process_results (parse (jaSubst gen)) ((a :: rest).map parse) =
      some (em, q)
    rw [List.map_cons]
    exact heq
  · rw [hem]
    constructor
    · rintro ⟨ans, hans, h⟩
      rcases List.mem_cons.mp hans with rfl | hans'
      · exact ⟨a, List.mem_cons_self _ _, h⟩
      · rcases List.mem_map.mp hans' with ⟨b, hb, rfl⟩
        exact ⟨b, List.mem_cons_of_mem _ hb, h⟩
    · rintro ⟨ans, hans, h⟩
      rcases List.mem_cons.mp hans with rfl | hans'
      · exact ⟨parse ans, List.mem_cons_self _ _, h⟩
      · exact ⟨parse ans,
          List.mem_cons_of_mem _ (List.mem_map.mpr ⟨ans, hans', rfl⟩), h⟩
  · rw [← hml]
    exact hmemq
  · rw [← hml]
    exact hmax

/-- C9: splitting the task list "a,b" and the few-shot list "0" on commas
yields lists of different lengths, so `evaluate` returns the assertion error
for every generation capability, without applying it; and whenever the two
comma-split lists have equal length, no such error is raised and the result
is the per-task run over the task list. -/
theorem evaluate_config_length_check :
    (∀ runTask : Str → ℚ, evaluate "a,b".toList "0".toList runTask =
      Except.error
        "The length of tasks and the length of num_fewshot_samples must be the same.".toList) ∧
    (∀ (tasks num_fewshot_samples : Str) (runTask : Str → ℚ),
      (splitComma tasks).length = (splitComma num_fewshot_samples).length →
        evaluate tasks num_fewshot_samples runTask =
          Except.ok ((splitComma tasks).map runTask)) := by
  constructor
  · intro runTask
    simp only [evaluate]
    rw [if_neg (by decide)]
  · intro tasks num_fewshot_samples runTask h
    simp only [evaluate]
    rw [if_pos h]

/-- C10: the punctuation set stripped by `normalize_answer` is a subset of
ASCII (every member of Python's `string.punctuation` has code point at most
126); characters outside it survive `remove_punc`, so the full-width
characters "。", "・", "「" survive normalization unchanged and the pair
"a。" / "a", which differs only in such a character, is not an exact match. -/
theorem punctuation_removal_ascii_only :
    (∀ c : Char, isPyPunct c = true → c.toNat ≤ 126) ∧
    (∀ (text : Str) (c : Char), c ∈ text → isPyPunct c = false →
      c ∈ remove_punc text) ∧
    normalize_answer "。・「".toList = "。・「".toList ∧
    exact_match_score "a。".toList "a".toList = false := by
  refine ⟨?_, ?_, by decide, by decide⟩
  · intro c h
    simp only [isPyPunct, Bool.or_eq_true, Bool.and_eq_true,
      decide_eq_true_eq] at h
    omega
  · intro text c hc h
    exact List.mem_filter.mpr ⟨hc, by simp [h]⟩

end Leia
